import Mathlib

/-!
Formal model of the Medusa sound-effects synthesizer firmware
(`Medusa_V1.ino`), shallowly embedded in Lean 4.

Conventions used throughout this development:
* C unsigned 32-bit values (`uint32_t` phases, `millis()` timestamps) are
  modelled as `ℕ` reduced modulo `2 ^ 32` wherever the C code wraps.
* C `int16_t` conversions are modelled by `toInt16`, which wraps an integer
  into `[-32768, 32767]` (two's-complement behaviour of the target compilers).
* The C arithmetic right shift `>> 12` on a signed 32-bit value is floor
  division by `4096`, i.e. `Int.fdiv`.
* C integer division `/` truncates toward zero, i.e. `Int.tdiv`.
* `float` quantities that the claims depend on only through exact order and
  power-of-two scaling facts (scale-ratio tables, loop-pattern thresholds)
  are modelled as `ℚ` with the literal decimal values from the source.
-/

/-- Wrap an integer into the signed 16-bit range `[-32768, 32767]`; this is
the effect of converting a wider C integer to `int16_t`. -/
def toInt16 (n : ℤ) : ℤ :=
  (n + 32768) % 65536 - 32768

/-- Source `generateSawtooth` (part_000:849): `(int16_t)(ph >> 16) - 16384`,
returned as `int16_t`.  The phase is a `uint32_t`. -/
def generateSawtooth (ph : ℕ) : ℤ :=
  toInt16 (toInt16 (((ph % 2 ^ 32) / 2 ^ 16 : ℕ)) - 16384)

/-- Source `generateSquare` (part_000:853): `(ph & 0x80000000) ? 16384 : -16384`. -/
def generateSquare (ph : ℕ) : ℤ :=
  if (ph % 2 ^ 32) / 2 ^ 31 = 1 then 16384 else -16384

/-- Source `generateTriangle` (part_000:866): branches on the top two phase
bits (`quarter = ph >> 30`) and shapes `(int16_t)((ph >> 15) & 0xFFFF)`;
the result variable `val` is an `int16_t`, so every branch wraps. -/
def generateTriangle (ph : ℕ) : ℤ :=
  let p := ph % 2 ^ 32
  let quarter := p / 2 ^ 30
  let m := toInt16 (((p / 2 ^ 15) % 2 ^ 16 : ℕ))
  if quarter = 0 then toInt16 (m - 16384)
  else if quarter = 1 then toInt16 (16384 - m)
  else if quarter = 2 then toInt16 (16384 - m)
  else toInt16 (m - 16384)

/-- Source `applyBitCrusher` (part_000:881): identity for `bits >= 8`;
otherwise `int16_t step = 32768 >> bits` (which wraps to `-32768` when
`bits = 0`) and the result is `(sample / step) * step` in C truncating
division, returned as `int16_t`. -/
def applyBitCrusher (sample : ℤ) (bits : ℕ) : ℤ :=
  if 8 ≤ bits then sample
  else
    let step := toInt16 (32768 / 2 ^ bits)
    toInt16 (Int.tdiv sample step * step)

/-- Source lowpass update (part_000:2703):
`filterState = filterState + (((sample - filterState) * filterAmount) >> 12)`.
The `>> 12` is an arithmetic shift on a signed 32-bit value, i.e. floor
division by 4096. -/
def filterStep (x c s : ℤ) : ℤ :=
  s + Int.fdiv ((x - s) * c) 4096

/-- Iterated lowpass updates driven by the constant input `x`, starting from
`filterState = s0`. -/
def filterIter (x c s0 : ℤ) : ℕ → ℤ
  | 0 => s0
  | n + 1 => filterStep x c (filterIter x c s0 n)

/-- Convergence of an integer sequence: from some index on it equals `x`. -/
def convergesTo (f : ℕ → ℤ) (x : ℤ) : Prop :=
  ∃ N, ∀ n, N ≤ n → f n = x

-- Musical scale ratio tables (part_000:354-367), modelled with the literal
-- decimal values as exact rationals.

def minorPentatonic : List ℚ := [1, 1.189, 1.335, 1.498, 1.782, 2]

def minorPentatonicSize : ℕ := 6

def majorScale : List ℚ := [1, 1.122, 1.260, 1.335, 1.498, 1.682, 1.888, 2]

def majorScaleSize : ℕ := 8

def bluesScale : List ℚ := [1, 1.189, 1.260, 1.335, 1.498, 1.782, 2]

def bluesScaleSize : ℕ := 7

def minorScale : List ℚ := [1, 1.122, 1.189, 1.335, 1.498, 1.587, 1.782, 2]

def minorScaleSize : ℕ := 8

def chromaticScale : List ℚ :=
  [1, 1.059, 1.122, 1.189, 1.260, 1.335, 1.414, 1.498, 1.587, 1.682, 1.782, 1.888, 2]

def chromaticScaleSize : ℕ := 13

/-- Scale table selected by `mutate.currentScale` (the `switch` shared by
`quantizePitchToScale` and `mutatePitch`); any out-of-range id falls back to
the minor pentatonic, as in the source's `default` case. -/
def scaleOf : ℕ → List ℚ
  | 0 => minorPentatonic
  | 1 => majorScale
  | 2 => bluesScale
  | 3 => minorScale
  | 4 => chromaticScale
  | _ => minorPentatonic

/-- Scale size selected by `mutate.currentScale` (same `switch`). -/
def scaleSizeOf : ℕ → ℕ
  | 0 => minorPentatonicSize
  | 1 => majorScaleSize
  | 2 => bluesScaleSize
  | 3 => minorScaleSize
  | 4 => chromaticScaleSize
  | _ => minorPentatonicSize

/-- Wrap an integer into the signed 32-bit range `[-2^31, 2^31 - 1]`
(two's-complement behaviour of the 32-bit `int` on the target). -/
def toInt32 (n : ℤ) : ℤ :=
  (n + 2 ^ 31) % 2 ^ 32 - 2 ^ 31

/-- Value of the C expression `1 << octave` on the 32-bit target: exact
`2 ^ octave` up to 30, `INT_MIN` at 31 (the shift wraps), and 0 for
`octave >= 32` (where the C shift is undefined; the model adopts the
two's-complement wrap of the mathematical value, which is what the target
hardware computes for these shift amounts). -/
def shiftOne32 (octave : ℕ) : ℤ :=
  toInt32 (2 ^ octave)

/-- Source `quantizePitchToScale` (part_000:2889): the `scaleStep` parameter
is a `uint8_t`, so the argument wraps modulo 256; the step splits into
octave and note-in-scale and the result is
`110.0f * (1 << octave) * scale[note]`, where `1 << octave` is a 32-bit
`int` shift (`shiftOne32`).  The `baseFreq` parameter is accepted but never
read by the source. -/
def quantizePitchToScale (currentScale : ℕ) (baseFreq : ℚ) (scaleStep : ℕ) : ℚ :=
  let step := scaleStep % 256
  let scale := scaleOf currentScale
  let scaleSize := scaleSizeOf currentScale
  let octave := step / scaleSize
  let noteInScale := step % scaleSize
  let rootFreq : ℚ := 110
  let octaveFreq := rootFreq * ((shiftOne32 octave : ℤ) : ℚ)
  octaveFreq * scale.getD noteInScale 0

/-- Random-walk step amount drawn by `mutatePitch` (part_000:2954-2965):
`randomValue = random(100)` selects the tier (octave jump below 10, `±2`
below 40, otherwise `±1`) and `coin` models `random(2) == 0` choosing the
sign. -/
def mutateChange (scaleSize randomValue : ℕ) (coin : Bool) : ℤ :=
  if randomValue < 10 then (if coin then (scaleSize : ℤ) else -(scaleSize : ℤ))
  else if randomValue < 40 then (if coin then 2 else -2)
  else (if coin then 1 else -1)

/-- Pitch-step update of `mutatePitch` (part_000:2968-2974): add the drawn
change to `mutate.pitchStep`, then clamp into `[0, scaleSize*4)`. -/
def mutatePitchStep (currentScale pitchStep randomValue : ℕ) (coin : Bool) : ℕ :=
  let scaleSize := scaleSizeOf currentScale
  let newStep : ℤ := (pitchStep : ℤ) + mutateChange scaleSize randomValue coin
  if newStep < 0 then 0
  else if (scaleSize * 4 : ℤ) ≤ newStep then scaleSize * 4 - 1
  else newStep.toNat

/-- Capacity of the record buffer: 5 seconds at 22050 Hz (part_000:504). -/
def MAX_RECORD_SAMPLES : ℕ := 110250

/-- Recorder state (part_000:506-516); the buffer is a total map from sample
index to the stored `int16_t` value. -/
structure RecordState where
  recording : Bool
  hasRecording : Bool
  recordPosition : ℕ
  recordLength : ℕ
  buffer : ℕ → ℤ

/-- One audio tick of the recording branch of `generateSample`
(part_000:2839-2850): while recording and below capacity, append the final
mixed sample and advance; on reaching capacity, auto-stop with
`hasRecording = true` and `recordLength = recordPosition`. -/
def recordTick (sample : ℤ) (r : RecordState) : RecordState :=
  if r.recording ∧ r.recordPosition < MAX_RECORD_SAMPLES then
    let buffer := fun i => if i = r.recordPosition then sample else r.buffer i
    let pos := r.recordPosition + 1
    if MAX_RECORD_SAMPLES ≤ pos then
      { recording := false, hasRecording := true, recordPosition := pos,
        recordLength := pos, buffer := buffer }
    else
      { r with recordPosition := pos, buffer := buffer }
  else r

/-- Starting a recording (part_000:1614-1616): set `recording` and reset the
write position and length. -/
def startRecording (r : RecordState) : RecordState :=
  { r with recording := true, recordPosition := 0, recordLength := 0 }

/-- Sequencer state relevant to step advancement (part_000 `SequencerState`):
per-step enable flags, current step, and whether a note is active. -/
structure SeqState where
  stepEnabled : Fin 8 → Bool
  currentStep : Fin 8
  noteActive : Bool

/-- The disabled-step-skipping loop of `loop1` (part_000:5878-5881):
`while (!stepEnabled[nextStep] && stepsChecked < 8) { nextStep = (nextStep+1)%8;
stepsChecked++; }`, written with `remaining = 8 - stepsChecked` as structural
fuel; `Fin 8` addition is the `% 8` wrap-around. -/
def probeLoop (enabled : Fin 8 → Bool) (next : Fin 8) : ℕ → Fin 8
  | 0 => next
  | remaining + 1 => if enabled next then next else probeLoop enabled (next + 1) remaining

/-- Step advancement of `loop1` (part_000:5869-5895): probe the successors of
the current step; if the probe lands on an enabled step it becomes current
and a note starts, otherwise (all 8 steps disabled) the note is cleared. -/
def advanceStep (s : SeqState) : SeqState :=
  let nextStep := probeLoop s.stepEnabled (s.currentStep + 1) 8
  if s.stepEnabled nextStep then
    { s with currentStep := nextStep, noteActive := true }
  else
    { s with noteActive := false }

/-- Advance decision of `loop1` (part_000:5856-5866): a sync rising edge has
priority while sync is connected; otherwise the internal timer fires once
`stepInterval` milliseconds have elapsed since the last step. -/
def shouldAdvance (syncConnected syncRisingEdge : Bool)
    (elapsedSinceStep stepInterval : ℕ) : Bool :=
  (syncConnected && syncRisingEdge)
    || (!syncConnected && decide (stepInterval ≤ elapsedSinceStep))

/-- Gate-length check of `generateSample` (part_000:2422-2426): the note is
cleared once the elapsed note time reaches the gate duration. -/
def seqGateTick (noteElapsed noteDuration : ℕ) (s : SeqState) : SeqState :=
  if noteDuration ≤ noteElapsed then { s with noteActive := false } else s

/-- Audio gating of the sequencer branch of `generateSample`
(part_000:2429-2545): a sample is produced only when the current step is
enabled and a note is active, otherwise the output is 0.  `raw` abstracts
the waveform/filter/envelope value computed in the sounding branch, which
this claim does not constrain. -/
def seqAudioSample (s : SeqState) (raw : ℤ) : ℤ :=
  if s.stepEnabled s.currentStep && s.noteActive then raw else 0

/-- Enable pattern used by the C5 witness: only step 2 enabled. -/
def seqExample : SeqState :=
  { stepEnabled := fun i => decide (i = (2 : Fin 8)), currentStep := 0, noteActive := false }

/-- Capacity of the echo delay line (part_000:111). -/
def MAX_DELAY_SAMPLES : ℕ := 11025

/-- Echo line state (part_000:112-113): circular `int16_t` buffer plus write
cursor. -/
structure EchoState where
  buffer : ℕ → ℤ
  writePos : ℕ

/-- Saturation of the feedback write to `int16_t` (part_000:2783-2784). -/
def clampInt16 (v : ℤ) : ℤ :=
  if 32767 < v then 32767 else if v < -32768 then -32768 else v

/-- Read cursor of the echo line (part_000:2728):
`(echoWritePos + MAX_DELAY_SAMPLES - siren.echoTime) % MAX_DELAY_SAMPLES`. -/
def echoReadPos (echoTime writePos : ℕ) : ℕ :=
  (writePos + MAX_DELAY_SAMPLES - echoTime) % MAX_DELAY_SAMPLES

/-- One audio tick of the echo branch of `generateSample`
(part_000:2722-2790), specialised to the configuration of the claim: delay
enabled (`delayIndex > 0`), reverse mode inactive, and `echoFeedback = 0`
(so the wet term `delayedSample * echoFeedback` is exactly 0).  The tick
reads the delayed sample, writes `dry + wet*feedback` — gated to the wet
term alone below the ±50 noise floor — saturated to `int16_t` at the write
cursor, and advances the cursor. -/
def echoStep (echoTime : ℕ) (dry : ℤ) (s : EchoState) : EchoState :=
  let readPos := echoReadPos echoTime s.writePos
  let delayed := s.buffer readPos
  let feedback := if |dry| < 50 then delayed * 0 else dry + delayed * 0
  { buffer := fun i => if i = s.writePos then clampInt16 feedback else s.buffer i,
    writePos := (s.writePos + 1) % MAX_DELAY_SAMPLES }

/-- State of the echo line after `n` ticks driven by the dry input stream
`input`. -/
def echoRun (echoTime : ℕ) (input : ℕ → ℤ) (s0 : EchoState) : ℕ → EchoState
  | 0 => s0
  | n + 1 => echoStep echoTime (input n) (echoRun echoTime input s0 n)

/-- The delayed sample read from the echo line during tick `n`. -/
def echoOut (echoTime : ℕ) (input : ℕ → ℤ) (s0 : EchoState) (n : ℕ) : ℤ :=
  (echoRun echoTime input s0 n).buffer
    (echoReadPos echoTime (echoRun echoTime input s0 n).writePos)

/-- All-zero initial echo state (the source clears the buffer when the delay
is turned on, part_000:4251-4254). -/
def echoZeroState : EchoState :=
  { buffer := fun _ => 0, writePos := 0 }

/-- Dry input stream for the C2 counterexample: a single sample of value 30
(below the ±50 noise floor) at tick 0. -/
def echoImpulse30 : ℕ → ℤ :=
  fun k => if k = 0 then 30 else 0

/-- Dry input stream for the C2 witness: constant 100 (above the noise
floor). -/
def echoConst100 : ℕ → ℤ :=
  fun _ => 100

/-- Fractional part, modelling `fmod(x, 1.0f)` for nonnegative `x`. -/
def fracQ (q : ℚ) : ℚ :=
  q - ⌊q⌋

/-- Normalised position in the loop-pattern cycle (part_000:3113):
`(elapsed % cycleTime) / cycleTime`. -/
def loopPosition (elapsed period : ℕ) : ℚ :=
  ((elapsed % period : ℕ) : ℚ) / (period : ℚ)

/-- Source `evaluateLoopPattern` (part_000:3104-3167) in exact rational
arithmetic.  Pattern ids follow the `LoopPattern` enum (part_000:259-267):
0 OFF, 1 TRIPLET, 2 SWING, 3 STACCATO, 4 GATE, 5 RATCHET, 6 DOTTED; the gate
is unconditionally open when the loop is inactive or the pattern is OFF, and
the `default` case returns true. -/
def evaluateLoopPattern (active : Bool) (pattern elapsed period : ℕ) : Bool :=
  if ¬ active ∨ pattern = 0 then true
  else
    let position := loopPosition elapsed period
    if pattern = 1 then decide (fracQ (position * 6) < 0.5)
    else if pattern = 2 then decide (fracQ (position * 3) < 0.6)
    else if pattern = 3 then decide (fracQ (position * 4) < 0.25)
    else if pattern = 4 then decide (position < 0.5)
    else if pattern = 5 then decide (fracQ (position * 12) < 0.5)
    else if pattern = 6 then
      (if ⌊position * 4⌋ % 2 = 0 then decide (fracQ (position * 4) < 0.6)
       else decide (fracQ (position * 4) < 0.3))
    else true

/-- Unsigned 32-bit subtraction `a - b` as used on `millis()` timestamps. -/
def sub32 (a b : ℕ) : ℕ :=
  (a % 2 ^ 32 + (2 ^ 32 - b % 2 ^ 32)) % 2 ^ 32

/-- Musical tempo divisions of `mutateSpeed` (part_000:3011). -/
def tempoSteps : List ℚ :=
  [0.5, 1, 2, 3.5, 5, 8, 12, 16, 20]

/-- Mutation-engine state (part_000 `MutationState` plus the fields the
mutation body rewrites, specialised to the dub-siren instrument; the other
instrument branches differ only in which parameter fields an accepted
mutation rewrites).  `lastActiveMutateMode` is the `static` local of
`triggerMutation` (part_000:3073). -/
structure MutateState where
  fullyDisabled : Bool
  lastMutateTime : ℕ
  mode : ℕ
  lastActiveMutateMode : ℕ
  currentScale : ℕ
  pitchStep : ℕ
  speedStep : ℕ
  lfoDepth : ℚ
  lfoRate : ℚ
  baseFreq : ℚ
  frequency : ℚ

/-- Source `mutatePitch` (part_000:2939-3006) for the dub siren: update the
pitch step by the drawn change, requantize (the first argument of
`quantizePitchToScale` is ignored by the source), clamp to 50-2000 Hz, and
apply the global octave shift. -/
def mutatePitchM (octaveShift : ℤ) (r100 : ℕ) (coin : Bool) (s : MutateState) :
    MutateState :=
  let step := mutatePitchStep s.currentScale s.pitchStep r100 coin
  let octaveOffset := step / scaleSizeOf s.currentScale
  let scaleNote := step % scaleSizeOf s.currentScale
  let f0 := quantizePitchToScale s.currentScale (100 * 2 ^ octaveOffset) scaleNote
  let f1 := if f0 < 50 then (50 : ℚ) else if 2000 < f0 then 2000 else f0
  let f2 := if 0 < octaveShift then f1 * 2 ^ octaveShift.toNat
            else if octaveShift < 0 then f1 / 2 ^ (-octaveShift).toNat
            else f1
  { s with pitchStep := step, baseFreq := f2, frequency := f2 }

/-- Source `mutateSpeed` (part_000:3009-3031) for the non-lead instruments:
random walk `change = random(3) - 1` on the tempo step, clamped to `[0, 8]`,
mapped through `tempoSteps` onto the LFO rate. -/
def mutateSpeedM (r3 : ℕ) (s : MutateState) : MutateState :=
  let newStep : ℤ := (s.speedStep : ℤ) + ((r3 : ℤ) - 1)
  let newStep2 : ℕ := if newStep < 0 then 0 else if 9 ≤ newStep then 8 else newStep.toNat
  { s with speedStep := newStep2, lfoRate := tempoSteps.getD newStep2 0 }

/-- Source `mutateModulation` (part_000:3034-3048) for the dub siren:
`change = (random(41) - 20) / 100`, added to the LFO depth and clamped to
`[0, 1]`. -/
def mutateModulationM (r41 : ℕ) (s : MutateState) : MutateState :=
  let d := s.lfoDepth + ((r41 : ℚ) - 20) / 100
  let d2 := if d < 0 then (0 : ℚ) else if 1 < d then 1 else d
  { s with lfoDepth := d2 }

/-- The `switch (lastActiveMutateMode)` body of `triggerMutation`
(part_000:3082-3100): tier 1 mutates pitch, tier 2 pitch and speed, tier 3
pitch, speed and modulation; any other value falls through doing nothing. -/
def mutateBody (octaveShift : ℤ) (r100 : ℕ) (coin : Bool) (r3 r41 : ℕ)
    (t : MutateState) : MutateState :=
  if t.lastActiveMutateMode = 1 then mutatePitchM octaveShift r100 coin t
  else if t.lastActiveMutateMode = 2 then mutateSpeedM r3 (mutatePitchM octaveShift r100 coin t)
  else if t.lastActiveMutateMode = 3 then
    mutateModulationM r41 (mutateSpeedM r3 (mutatePitchM octaveShift r100 coin t))
  else t

/-- Source `triggerMutation` (part_000:3062-3101): return immediately when
mutations are fully disabled, or when less than 100 ms (by the wrapping
`millis()` clock) have passed since the last accepted mutation; otherwise
record the time, refresh the remembered active tier (`mode` when it is not
OFF), and run the tier's mutations. -/
def triggerMutation (now : ℕ) (octaveShift : ℤ) (r100 : ℕ) (coin : Bool)
    (r3 r41 : ℕ) (s : MutateState) : MutateState :=
  if s.fullyDisabled then s
  else if sub32 now s.lastMutateTime < 100 then s
  else
    mutateBody octaveShift r100 coin r3 r41
      { s with lastMutateTime := now % 2 ^ 32,
               lastActiveMutateMode := if s.mode ≠ 0 then s.mode else s.lastActiveMutateMode }

/-- Concrete mutation state for the C10 witness. -/
def mutateExample : MutateState :=
  { fullyDisabled := false, lastMutateTime := 0, mode := 1,
    lastActiveMutateMode := 1, currentScale := 0, pitchStep := 10,
    speedStep := 3, lfoDepth := 0.5, lfoRate := 2, baseFreq := 440,
    frequency := 440 }

-- Basic facts about `toInt16`.

theorem toInt16_lb (n : ℤ) : -32768 ≤ toInt16 n := by
  have h : 0 ≤ (n + 32768) % 65536 := Int.emod_nonneg _ (by norm_num)
  unfold toInt16
  omega

theorem toInt16_ub (n : ℤ) : toInt16 n ≤ 32767 := by
  have h : (n + 32768) % 65536 < 65536 := Int.emod_lt_of_pos _ (by norm_num)
  unfold toInt16
  omega

theorem toInt16_eq_self (n : ℤ) (h1 : -32768 ≤ n) (h2 : n ≤ 32767) :
    toInt16 n = n := by
  unfold toInt16
  have h3 : (n + 32768) % 65536 = n + 32768 := Int.emod_eq_of_lt (by omega) (by omega)
  omega

/-- Periodicity helper: a `uint32_t` phase argument only matters modulo `2 ^ 32`. -/
theorem phase_mod_period (ph : ℕ) : (ph + 2 ^ 32) % 2 ^ 32 = ph % 2 ^ 32 :=
  Nat.add_mod_right ph (2 ^ 32)

/-- C1 (counterexample).  The claim bounds all three oscillators by
`[-16384, 16383]`, but `generateSquare` returns `16384` whenever the top
phase bit is set, `generateSawtooth (2^31) = 16384`, and
`generateTriangle 0x5FFF8000 = -32767`: the `int16_t` casts wrap instead of
clamping, so the outputs leave the claimed interval. -/
theorem medusa_c1_counterexample :
    generateSquare 2147483648 = 16384 ∧
    ¬ generateSquare 2147483648 ≤ 16383 ∧
    generateSawtooth 2147483648 = 16384 ∧
    ¬ generateSawtooth 2147483648 ≤ 16383 ∧
    generateTriangle 1610596352 = -32767 ∧
    ¬ -16384 ≤ generateTriangle 1610596352 := by
  refine ⟨by decide, by decide, by decide, by decide, by decide, by decide⟩

/-- C1 (amended).  For every phase value, `generateSawtooth`, `generateSquare`
and `generateTriangle` return a value in the full signed 16-bit range
`[-32768, 32767]` (`generateSquare` always returns `±16384`), and each
function is periodic with period `2 ^ 32`: the output depends only on the
32-bit phase, so equal phases give equal outputs. -/
theorem medusa_c1_amended : ∀ ph : ℕ,
    (-32768 ≤ generateSawtooth ph ∧ generateSawtooth ph ≤ 32767) ∧
    (generateSquare ph = 16384 ∨ generateSquare ph = -16384) ∧
    (-32768 ≤ generateTriangle ph ∧ generateTriangle ph ≤ 32767) ∧
    generateSawtooth (ph + 2 ^ 32) = generateSawtooth ph ∧
    generateSquare (ph + 2 ^ 32) = generateSquare ph ∧
    generateTriangle (ph + 2 ^ 32) = generateTriangle ph := by
  intro ph
  refine ⟨⟨toInt16_lb _, toInt16_ub _⟩, ?_, ?_, ?_, ?_, ?_⟩
  · unfold generateSquare
    split <;> simp
  · refine ⟨?_, ?_⟩
    · simp only [generateTriangle]
      split
      · exact toInt16_lb _
      · split
        · exact toInt16_lb _
        · split
          · exact toInt16_lb _
          · exact toInt16_lb _
    · simp only [generateTriangle]
      split
      · exact toInt16_ub _
      · split
        · exact toInt16_ub _
        · split
          · exact toInt16_ub _
          · exact toInt16_ub _
  · unfold generateSawtooth
    rw [phase_mod_period]
  · unfold generateSquare
    rw [phase_mod_period]
  · unfold generateTriangle
    rw [phase_mod_period]

-- Sign-split facts about C truncating division: quantizing never increases
-- magnitude and never flips sign.

theorem tdiv_mul_nonneg_le (s d : ℤ) (hs : 0 ≤ s) (hd : 0 < d) :
    0 ≤ Int.tdiv s d * d ∧ Int.tdiv s d * d ≤ s := by
  rw [Int.tdiv_eq_ediv hs hd.le]
  exact ⟨mul_nonneg (Int.ediv_nonneg hs hd.le) hd.le, Int.ediv_mul_le s (ne_of_gt hd)⟩

theorem tdiv_mul_nonpos_ge (s d : ℤ) (hs : s ≤ 0) (hd : 0 < d) :
    s ≤ Int.tdiv s d * d ∧ Int.tdiv s d * d ≤ 0 := by
  have h := tdiv_mul_nonneg_le (-s) d (by omega) hd
  have he : Int.tdiv s d * d = -(Int.tdiv (-s) d * d) := by
    have h1 : Int.tdiv (-s) d = -Int.tdiv s d := Int.neg_tdiv s d
    rw [h1]; ring
  omega

/-- Unfolding `applyBitCrusher` for `bits < 8`: the stored `int16_t` step is
`-32768` for `bits = 0` and `2 ^ (15 - bits)` otherwise, but because C
truncating division is sign-symmetric the result always equals quantization
by the positive step `2 ^ (15 - bits)`. -/
theorem applyBitCrusher_eq (s : ℤ) (bits : ℕ) (h : bits < 8) :
    applyBitCrusher s bits
      = toInt16 (Int.tdiv s (2 ^ (15 - bits)) * 2 ^ (15 - bits)) := by
  interval_cases bits
  · show toInt16 (Int.tdiv s (toInt16 (32768 / 2 ^ 0)) * toInt16 (32768 / 2 ^ 0)) = _
    have hstep : toInt16 (32768 / 2 ^ 0) = -32768 := by decide
    rw [hstep]
    have h1 : Int.tdiv s (-32768) = -Int.tdiv s 32768 := Int.tdiv_neg s 32768
    have h2 : Int.tdiv s (-32768) * (-32768) = Int.tdiv s 32768 * 32768 := by
      rw [h1]; ring
    rw [h2]; norm_num
  all_goals
    simp only [applyBitCrusher]
    norm_num [toInt16]

theorem medusa_c9_pre (sample : ℤ) (bits : ℕ)
    (h1 : -32768 ≤ sample) (h2 : sample ≤ 32767) (h : bits < 8) :
    applyBitCrusher sample bits = Int.tdiv sample (2 ^ (15 - bits)) * 2 ^ (15 - bits) := by
  rw [applyBitCrusher_eq sample bits h]
  have hd : (0 : ℤ) < 2 ^ (15 - bits) := by positivity
  rcases le_or_lt 0 sample with hs | hs
  · have hb := tdiv_mul_nonneg_le sample _ hs hd
    exact toInt16_eq_self _ (by omega) (by omega)
  · have hb := tdiv_mul_nonpos_ge sample _ hs.le hd
    exact toInt16_eq_self _ (by omega) (by omega)

/-- C9.  For every `int16_t` sample: `applyBitCrusher` is the identity for
`bits >= 8`; for `bits < 8` it returns `(sample / step) * step` with
`step = 32768 >> bits = 2 ^ (15 - bits)` (C truncating division), so the
result is an exact multiple of the step with magnitude no greater than the
sample's, and the function is idempotent at the same bit depth. -/
theorem medusa_c9 (sample : ℤ) (bits : ℕ)
    (h1 : -32768 ≤ sample) (h2 : sample ≤ 32767) :
    (8 ≤ bits → applyBitCrusher sample bits = sample) ∧
    (bits < 8 →
      applyBitCrusher sample bits
        = Int.tdiv sample (2 ^ (15 - bits)) * 2 ^ (15 - bits) ∧
      ((2 : ℤ) ^ (15 - bits)) ∣ applyBitCrusher sample bits ∧
      |applyBitCrusher sample bits| ≤ |sample|) ∧
    applyBitCrusher (applyBitCrusher sample bits) bits = applyBitCrusher sample bits := by
  have hd : (0 : ℤ) < 2 ^ (15 - bits) := by positivity
  refine ⟨?_, ?_, ?_⟩
  · intro h8
    simp [applyBitCrusher, h8]
  · intro h8
    have heq := medusa_c9_pre sample bits h1 h2 h8
    refine ⟨heq, ⟨Int.tdiv sample (2 ^ (15 - bits)), by rw [heq]; ring⟩, ?_⟩
    rcases le_or_lt 0 sample with hs | hs
    · have hb := tdiv_mul_nonneg_le sample _ hs hd
      rw [heq]; rw [abs_of_nonneg hb.1, abs_of_nonneg hs]; exact hb.2
    · have hb := tdiv_mul_nonpos_ge sample _ hs.le hd
      rw [heq]; rw [abs_of_nonpos hb.2, abs_of_nonpos hs.le]; omega
  · rcases le_or_lt 8 bits with h8 | h8
    · simp [applyBitCrusher, h8]
    · have heq := medusa_c9_pre sample bits h1 h2 h8
      have hrange : -32768 ≤ applyBitCrusher sample bits ∧ applyBitCrusher sample bits ≤ 32767 := by
        rcases le_or_lt 0 sample with hs | hs
        · have hb := tdiv_mul_nonneg_le sample _ hs hd
          rw [heq]; omega
        · have hb := tdiv_mul_nonpos_ge sample _ hs.le hd
          rw [heq]; omega
      have h2eq := medusa_c9_pre (applyBitCrusher sample bits) bits hrange.1 hrange.2 h8
      rw [h2eq, heq, Int.mul_tdiv_cancel _ (ne_of_gt hd)]

/-- C9 (witness).  Concrete instance: crushing `1000` to 2 bits quantizes by
step `8192`, giving `0`. -/
theorem medusa_c9_witness :
    (-32768 : ℤ) ≤ 1000 ∧ (1000 : ℤ) ≤ 32767 ∧
    ((8 ≤ 2 → applyBitCrusher 1000 2 = 1000) ∧
     (2 < 8 →
       applyBitCrusher 1000 2 = Int.tdiv 1000 (2 ^ (15 - 2)) * 2 ^ (15 - 2) ∧
       ((2 : ℤ) ^ (15 - 2)) ∣ applyBitCrusher 1000 2 ∧
       |applyBitCrusher 1000 2| ≤ |(1000 : ℤ)|) ∧
     applyBitCrusher (applyBitCrusher 1000 2) 2 = applyBitCrusher 1000 2) := by
  exact ⟨by decide, by decide, medusa_c9 1000 2 (by decide) (by decide)⟩

theorem filterStep_below (x c s : ℤ) (hc1 : 1 ≤ c) (hc2 : c ≤ 4095) (hs : s ≤ x) :
    s ≤ filterStep x c s ∧ filterStep x c s ≤ x := by
  unfold filterStep
  rw [Int.fdiv_eq_ediv _ (by norm_num)]
  have h0 : 0 ≤ (x - s) * c := mul_nonneg (by omega) (by omega)
  have h1 : 0 ≤ (x - s) * c / 4096 := Int.ediv_nonneg h0 (by norm_num)
  have h2 : (x - s) * c ≤ (x - s) * 4096 := by nlinarith
  have h3 : (x - s) * c / 4096 ≤ (x - s) * 4096 / 4096 :=
    Int.ediv_le_ediv (by norm_num) h2
  have h4 : (x - s) * 4096 / 4096 = x - s := Int.mul_ediv_cancel _ (by norm_num)
  omega

theorem filterStep_above (x c s : ℤ) (hc1 : 1 ≤ c) (hc2 : c ≤ 4095) (hs : x ≤ s) :
    x ≤ filterStep x c s ∧ filterStep x c s ≤ s ∧
      (x < s → filterStep x c s < s) := by
  unfold filterStep
  rw [Int.fdiv_eq_ediv _ (by norm_num)]
  have h2 : (x - s) * 4096 ≤ (x - s) * c := by nlinarith
  have h3 : (x - s) * 4096 / 4096 ≤ (x - s) * c / 4096 :=
    Int.ediv_le_ediv (by norm_num) h2
  have h4 : (x - s) * 4096 / 4096 = x - s := Int.mul_ediv_cancel _ (by norm_num)
  have h5 : (x - s) * c ≤ 0 := by nlinarith
  have h6 : (x - s) * c / 4096 ≤ 0 := by
    have := Int.ediv_le_ediv (show (0:ℤ) < 4096 by norm_num) h5
    simpa using this
  refine ⟨by omega, by omega, ?_⟩
  intro hlt
  have h7 : (x - s) * c < 0 := by nlinarith
  have h8 : (x - s) * c / 4096 < 0 := Int.ediv_neg' h7 (by norm_num)
  omega

theorem filterStep_self (x c : ℤ) : filterStep x c x = x := by
  unfold filterStep
  simp

theorem filterStep_fix_below (x c s : ℤ) (hc1 : 1 ≤ c) (hs : s ≤ x) :
    filterStep x c s = s ↔ (x - s) * c < 4096 := by
  unfold filterStep
  rw [Int.fdiv_eq_ediv _ (by norm_num)]
  have h0 : 0 ≤ (x - s) * c := mul_nonneg (by omega) (by omega)
  constructor
  · intro h
    by_contra hge
    push_neg at hge
    have h1 : (1 : ℤ) ≤ (x - s) * c / 4096 :=
      (Int.le_ediv_iff_mul_le (by norm_num)).mpr (by omega)
    omega
  · intro h
    have h1 : (x - s) * c / 4096 = 0 := Int.ediv_eq_zero_of_lt h0 h
    omega

theorem filterIter_le_of_below (x c s0 : ℤ) (hc1 : 1 ≤ c) (hc2 : c ≤ 4095)
    (hs : s0 ≤ x) : ∀ n, filterIter x c s0 n ≤ x := by
  intro n
  induction n with
  | zero => exact hs
  | succ k ih => exact (filterStep_below x c _ hc1 hc2 ih).2

theorem filterIter_ge_of_above (x c s0 : ℤ) (hc1 : 1 ≤ c) (hc2 : c ≤ 4095)
    (hs : x ≤ s0) : ∀ n, x ≤ filterIter x c s0 n := by
  intro n
  induction n with
  | zero => exact hs
  | succ k ih => exact (filterStep_above x c _ hc1 hc2 ih).1

theorem filterIter_fix_persist (x c s0 : ℤ) (n : ℕ)
    (h : filterStep x c (filterIter x c s0 n) = filterIter x c s0 n) :
    ∀ m, n ≤ m → filterIter x c s0 m = filterIter x c s0 n := by
  intro m hm
  induction m with
  | zero =>
    have hn : n = 0 := Nat.le_zero.mp hm
    rw [hn]
  | succ k ih =>
    rcases Nat.lt_or_ge n (k + 1) with hlt | hge
    · have hk : n ≤ k := Nat.lt_succ_iff.mp hlt
      show filterStep x c (filterIter x c s0 k) = filterIter x c s0 n
      rw [ih hk, h]
    · have hn : n = k + 1 := le_antisymm hm hge
      rw [hn]

theorem filterIter_progress_below (x c s0 : ℤ) (hc1 : 1 ≤ c) (hc2 : c ≤ 4095)
    (hs : s0 ≤ x) :
    ∀ n, filterStep x c (filterIter x c s0 n) = filterIter x c s0 n ∨
      s0 + n ≤ filterIter x c s0 n := by
  intro n
  induction n with
  | zero => right; simp [filterIter]
  | succ k ih =>
    have hk : filterIter x c s0 k ≤ x := filterIter_le_of_below x c s0 hc1 hc2 hs k
    by_cases hfix : filterStep x c (filterIter x c s0 k) = filterIter x c s0 k
    · left
      show filterStep x c (filterIter x c s0 (k + 1)) = filterIter x c s0 (k + 1)
      have hk1 : filterIter x c s0 (k + 1) = filterIter x c s0 k := hfix
      rw [hk1, hfix]
    · rcases ih with h | h
      · exact absurd h hfix
      · right
        have hmono : filterIter x c s0 k ≤ filterStep x c (filterIter x c s0 k) :=
          (filterStep_below x c _ hc1 hc2 hk).1
        have hne : filterIter x c s0 k ≠ filterStep x c (filterIter x c s0 k) :=
          fun he => hfix he.symm
        show s0 + (k + 1) ≤ filterStep x c (filterIter x c s0 k)
        omega

theorem filterIter_progress_above (x c s0 : ℤ) (hc1 : 1 ≤ c) (hc2 : c ≤ 4095)
    (hs : x ≤ s0) :
    ∀ n, filterIter x c s0 n = x ∨ filterIter x c s0 n + n ≤ s0 := by
  intro n
  induction n with
  | zero => right; simp [filterIter]
  | succ k ih =>
    have hk : x ≤ filterIter x c s0 k := filterIter_ge_of_above x c s0 hc1 hc2 hs k
    by_cases hfix : filterIter x c s0 k = x
    · left
      show filterStep x c (filterIter x c s0 k) = x
      rw [hfix, filterStep_self]
    · rcases ih with h | h
      · exact absurd h hfix
      · right
        have hlt : x < filterIter x c s0 k := lt_of_le_of_ne hk (fun he => hfix he.symm)
        have hstep := (filterStep_above x c _ hc1 hc2 hk).2.2 hlt
        show filterStep x c (filterIter x c s0 k) + (k + 1) ≤ s0
        omega

theorem filterIter_converges_above (x c s0 : ℤ) (hc1 : 1 ≤ c) (hc2 : c ≤ 4095)
    (hs : x ≤ s0) : convergesTo (filterIter x c s0) x := by
  have hN := filterIter_progress_above x c s0 hc1 hc2 hs ((s0 - x).toNat + 1)
  rcases hN with h | h
  · refine ⟨(s0 - x).toNat + 1, fun m hm => ?_⟩
    have hfix : filterStep x c (filterIter x c s0 ((s0 - x).toNat + 1))
        = filterIter x c s0 ((s0 - x).toNat + 1) := by
      rw [h, filterStep_self]
    rw [filterIter_fix_persist x c s0 _ hfix m hm, h]
  · exfalso
    have hge := filterIter_ge_of_above x c s0 hc1 hc2 hs ((s0 - x).toNat + 1)
    have htn : ((s0 - x).toNat : ℤ) = s0 - x := Int.toNat_of_nonneg (by omega)
    push_cast at h
    omega

theorem filterIter_ge_s0_below (x c s0 : ℤ) (hc1 : 1 ≤ c) (hc2 : c ≤ 4095)
    (hs : s0 ≤ x) : ∀ n, s0 ≤ filterIter x c s0 n := by
  intro n
  induction n with
  | zero => exact le_refl s0
  | succ k ih =>
    have hk : filterIter x c s0 k ≤ x := filterIter_le_of_below x c s0 hc1 hc2 hs k
    exact le_trans ih (filterStep_below x c _ hc1 hc2 hk).1

theorem filterIter_eventually_below (x c s0 : ℤ) (hc1 : 1 ≤ c) (hc2 : c ≤ 4095)
    (hs : s0 ≤ x) :
    ∃ L, convergesTo (filterIter x c s0) L ∧
      0 ≤ (x - L) * c ∧ (x - L) * c < 4096 ∧ s0 ≤ L ∧ L ≤ x := by
  rcases filterIter_progress_below x c s0 hc1 hc2 hs ((x - s0).toNat + 1) with h | h
  · have hle : filterIter x c s0 ((x - s0).toNat + 1) ≤ x :=
      filterIter_le_of_below x c s0 hc1 hc2 hs _
    refine ⟨filterIter x c s0 ((x - s0).toNat + 1),
      ⟨(x - s0).toNat + 1, fun m hm => filterIter_fix_persist x c s0 _ h m hm⟩,
      mul_nonneg (by omega) (by omega),
      (filterStep_fix_below x c _ hc1 hle).mp h,
      filterIter_ge_s0_below x c s0 hc1 hc2 hs _, hle⟩
  · exfalso
    have hle := filterIter_le_of_below x c s0 hc1 hc2 hs ((x - s0).toNat + 1)
    have htn : ((x - s0).toNat : ℤ) = x - s0 := Int.toNat_of_nonneg (by omega)
    push_cast at h
    omega

/-- C3 (counterexample).  With cutoff `c = 1`, constant input `x = 100` and
initial state `0`, the update increment is `(100 * 1) >> 12 = 0`: the state
is stuck at `0` forever and never converges to the input, refuting the
claimed convergence for every cutoff in `(0, 4095]`. -/
theorem medusa_c3_counterexample :
    (1 : ℤ) ≤ 1 ∧ (1 : ℤ) ≤ 4095 ∧ (0 : ℤ) ≤ 100 ∧
    filterStep 100 1 0 = 0 ∧ ¬ convergesTo (filterIter 100 1 0) 100 := by
  have hall : ∀ n, filterIter 100 1 0 n = 0 := by
    intro n
    induction n with
    | zero => rfl
    | succ k ih =>
      show filterStep 100 1 (filterIter 100 1 0 k) = 0
      rw [ih]
      decide
  refine ⟨by decide, by decide, by decide, by decide, ?_⟩
  rintro ⟨N, hN⟩
  have h := hN N (le_refl N)
  rw [hall N] at h
  exact absurd h (by decide)

/-- C3 (amended).  For every cutoff in `(0, 4095]` and every initial state,
the state sequence of `filterStep` driven by a constant input `x` is monotone
(non-decreasing and bounded by `x` when starting below, non-increasing and
bounded below by `x` when starting above).  Started at or above `x` it
converges to `x` exactly; in general it is eventually constant at a limit `L`
between the initial state and `x` satisfying `|x - L| * cutoff < 4096`, so
from below it can stall strictly short of `x` (the claimed convergence to `x`
itself fails there, see the counterexample). -/
theorem medusa_c3_amended (x c s0 : ℤ) (hc1 : 1 ≤ c) (hc2 : c ≤ 4095) :
    (s0 ≤ x → ∀ n, filterIter x c s0 n ≤ filterIter x c s0 (n + 1) ∧
      filterIter x c s0 n ≤ x) ∧
    (x ≤ s0 → ∀ n, filterIter x c s0 (n + 1) ≤ filterIter x c s0 n ∧
      x ≤ filterIter x c s0 n) ∧
    (x ≤ s0 → convergesTo (filterIter x c s0) x) ∧
    (∃ L, convergesTo (filterIter x c s0) L ∧ |x - L| * c < 4096 ∧
      min s0 x ≤ L ∧ L ≤ max s0 x) := by
  refine ⟨?_, ?_, filterIter_converges_above x c s0 hc1 hc2, ?_⟩
  · intro hs n
    have hk : filterIter x c s0 n ≤ x := filterIter_le_of_below x c s0 hc1 hc2 hs n
    exact ⟨(filterStep_below x c _ hc1 hc2 hk).1, hk⟩
  · intro hs n
    have hk : x ≤ filterIter x c s0 n := filterIter_ge_of_above x c s0 hc1 hc2 hs n
    exact ⟨(filterStep_above x c _ hc1 hc2 hk).2.1, hk⟩
  · rcases le_total s0 x with hs | hs
    · obtain ⟨L, hconv, hnn, hlt, hs0, hx⟩ :=
        filterIter_eventually_below x c s0 hc1 hc2 hs
      refine ⟨L, hconv, ?_, by omega, by omega⟩
      rw [abs_of_nonneg (by omega)]
      exact hlt
    · refine ⟨x, filterIter_converges_above x c s0 hc1 hc2 hs, ?_, by omega, by omega⟩
      simp

/-- C3 (witness).  Concrete instance: cutoff `2048`, input `100`, initial
state `0`. -/
theorem medusa_c3_witness :
    (1 : ℤ) ≤ 2048 ∧ (2048 : ℤ) ≤ 4095 ∧
    (((0 : ℤ) ≤ 100 → ∀ n, filterIter 100 2048 0 n ≤ filterIter 100 2048 0 (n + 1) ∧
        filterIter 100 2048 0 n ≤ 100) ∧
     ((100 : ℤ) ≤ 0 → ∀ n, filterIter 100 2048 0 (n + 1) ≤ filterIter 100 2048 0 n ∧
        (100 : ℤ) ≤ filterIter 100 2048 0 n) ∧
     ((100 : ℤ) ≤ 0 → convergesTo (filterIter 100 2048 0) 100) ∧
     (∃ L, convergesTo (filterIter 100 2048 0) L ∧ |(100 : ℤ) - L| * 2048 < 4096 ∧
        min (0 : ℤ) 100 ≤ L ∧ L ≤ max (0 : ℤ) 100)) := by
  exact ⟨by decide, by decide, medusa_c3_amended 100 2048 0 (by decide) (by decide)⟩

theorem scaleSizeOf_eq_length (sc : ℕ) : scaleSizeOf sc = (scaleOf sc).length := by
  rcases sc with _ | _ | _ | _ | _ | n <;> rfl

theorem scaleSizeOf_pos (sc : ℕ) : 0 < scaleSizeOf sc := by
  rcases sc with _ | _ | _ | _ | _ | n <;>
    simp [scaleSizeOf, minorPentatonicSize, majorScaleSize, bluesScaleSize,
      minorScaleSize, chromaticScaleSize]

theorem minorPentatonic_sorted : ∀ i, i + 1 < minorPentatonic.length →
    minorPentatonic.getD i 0 ≤ minorPentatonic.getD (i + 1) 0 := by
  intro i hi
  have h : i < 5 := by simp [minorPentatonic] at hi; omega
  interval_cases i <;> norm_num [minorPentatonic, List.getD]

theorem majorScale_sorted : ∀ i, i + 1 < majorScale.length →
    majorScale.getD i 0 ≤ majorScale.getD (i + 1) 0 := by
  intro i hi
  have h : i < 7 := by simp [majorScale] at hi; omega
  interval_cases i <;> norm_num [majorScale, List.getD]

theorem bluesScale_sorted : ∀ i, i + 1 < bluesScale.length →
    bluesScale.getD i 0 ≤ bluesScale.getD (i + 1) 0 := by
  intro i hi
  have h : i < 6 := by simp [bluesScale] at hi; omega
  interval_cases i <;> norm_num [bluesScale, List.getD]

theorem minorScale_sorted : ∀ i, i + 1 < minorScale.length →
    minorScale.getD i 0 ≤ minorScale.getD (i + 1) 0 := by
  intro i hi
  have h : i < 7 := by simp [minorScale] at hi; omega
  interval_cases i <;> norm_num [minorScale, List.getD]

theorem chromaticScale_sorted : ∀ i, i + 1 < chromaticScale.length →
    chromaticScale.getD i 0 ≤ chromaticScale.getD (i + 1) 0 := by
  intro i hi
  have h : i < 12 := by simp [chromaticScale] at hi; omega
  interval_cases i <;> norm_num [chromaticScale, List.getD]

theorem scaleOf_sorted (sc : ℕ) : ∀ i, i + 1 < (scaleOf sc).length →
    (scaleOf sc).getD i 0 ≤ (scaleOf sc).getD (i + 1) 0 := by
  rcases sc with _ | _ | _ | _ | _ | n
  · exact minorPentatonic_sorted
  · exact majorScale_sorted
  · exact bluesScale_sorted
  · exact minorScale_sorted
  · exact chromaticScale_sorted
  · exact minorPentatonic_sorted

theorem shiftOne32_eq_pow (o : ℕ) (h : o ≤ 30) : shiftOne32 o = 2 ^ o := by
  unfold shiftOne32 toInt32
  have h1 : (2 : ℤ) ^ o ≤ 2 ^ 30 := pow_le_pow_right₀ (by norm_num) h
  have h0 : (0 : ℤ) < 2 ^ o := by positivity
  have h2 : ((2 : ℤ) ^ o + 2 ^ 31) % 2 ^ 32 = 2 ^ o + 2 ^ 31 :=
    Int.emod_eq_of_lt (by positivity) (by norm_num; omega)
  rw [h2]
  ring

/-- C4 (counterexample).  The claim quantifies over all step values, but the
`uint8_t` parameter and the 32-bit `1 << octave` shift wrap: with the
chromatic scale, the call at step `243 + 13 = 256` wraps to step 0 and
returns 110 rather than twice the value at step 243; with the major scale,
steps 248-255 sit in octave 31 where `1 << 31` is `INT_MIN`, so the
frequency is negative, in-octave monotonicity reverses (step 248 vs 249) and
doubling fails at step `247 + 8 = 255`. -/
theorem medusa_c4_counterexample :
    quantizePitchToScale 4 440 (243 + scaleSizeOf 4) = 110 ∧
    quantizePitchToScale 4 440 (243 + scaleSizeOf 4)
      ≠ 2 * quantizePitchToScale 4 440 243 ∧
    248 / scaleSizeOf 1 = 249 / scaleSizeOf 1 ∧
    ¬ quantizePitchToScale 1 440 248 ≤ quantizePitchToScale 1 440 249 ∧
    quantizePitchToScale 1 440 (247 + scaleSizeOf 1)
      ≠ 2 * quantizePitchToScale 1 440 247 := by
  refine ⟨?_, ?_, by decide, ?_, ?_⟩ <;>
    norm_num [quantizePitchToScale, scaleOf, scaleSizeOf, chromaticScale,
      chromaticScaleSize, majorScale, majorScaleSize, shiftOne32, toInt32,
      List.getD]

/-- C4 (amended).  For every selected scale and every step `s` at which
neither wrap occurs — the `uint8_t` argument stays in range
(`s + 1 <= 255`, resp. `s + scaleSize <= 255`) and the `1 << octave` shift
stays exact (octave at most 30) — `quantizePitchToScale` is non-decreasing
in the step within one octave (same quotient by the scale size) and exactly
doubles when the step increases by one full scale length.  (There the
doubling is a power-of-two rescale, exact even in the source's `float`
arithmetic.) -/
theorem medusa_c4_amended (sc : ℕ) (b : ℚ) (s : ℕ) :
    (s + 1 ≤ 255 → s / scaleSizeOf sc = (s + 1) / scaleSizeOf sc →
      s / scaleSizeOf sc ≤ 30 →
      quantizePitchToScale sc b s ≤ quantizePitchToScale sc b (s + 1)) ∧
    (s + scaleSizeOf sc ≤ 255 → s / scaleSizeOf sc ≤ 29 →
      quantizePitchToScale sc b (s + scaleSizeOf sc)
        = 2 * quantizePitchToScale sc b s) := by
  have hn : 0 < scaleSizeOf sc := scaleSizeOf_pos sc
  constructor
  · intro h255 h hoct
    have hs : s % 256 = s := Nat.mod_eq_of_lt (by omega)
    have hs1 : (s + 1) % 256 = s + 1 := Nat.mod_eq_of_lt (by omega)
    have hmod : (s + 1) % scaleSizeOf sc = s % scaleSizeOf sc + 1 := by
      have h1 := Nat.div_add_mod s (scaleSizeOf sc)
      have h2 := Nat.div_add_mod (s + 1) (scaleSizeOf sc)
      rw [← h] at h2
      omega
    have hlt : s % scaleSizeOf sc + 1 < (scaleOf sc).length := by
      have hm2 := Nat.mod_lt (s + 1) hn
      rw [← scaleSizeOf_eq_length]
      omega
    have hshift : shiftOne32 (s / scaleSizeOf sc) = 2 ^ (s / scaleSizeOf sc) :=
      shiftOne32_eq_pow _ hoct
    simp only [quantizePitchToScale, hs, hs1]
    rw [hmod, ← h, hshift]
    push_cast
    exact mul_le_mul_of_nonneg_left (scaleOf_sorted sc _ hlt) (by positivity)
  · intro h255 hoct
    have hs : s % 256 = s := Nat.mod_eq_of_lt (by omega)
    have hsn : (s + scaleSizeOf sc) % 256 = s + scaleSizeOf sc :=
      Nat.mod_eq_of_lt (by omega)
    have hdiv : (s + scaleSizeOf sc) / scaleSizeOf sc = s / scaleSizeOf sc + 1 :=
      Nat.add_div_right s hn
    have hm : (s + scaleSizeOf sc) % scaleSizeOf sc = s % scaleSizeOf sc :=
      Nat.add_mod_right s _
    have hsh1 : shiftOne32 (s / scaleSizeOf sc + 1) = 2 ^ (s / scaleSizeOf sc + 1) :=
      shiftOne32_eq_pow _ (by omega)
    have hsh0 : shiftOne32 (s / scaleSizeOf sc) = 2 ^ (s / scaleSizeOf sc) :=
      shiftOne32_eq_pow _ (by omega)
    simp only [quantizePitchToScale, hs, hsn]
    rw [hdiv, hm, hsh1, hsh0]
    push_cast
    rw [pow_succ]
    ring

/-- C4 (witness).  Concrete instance: minor pentatonic scale, step 1, well
inside the wrap-free range. -/
theorem medusa_c4_witness :
    quantizePitchToScale 0 440 1 ≤ quantizePitchToScale 0 440 2 ∧
    quantizePitchToScale 0 440 (1 + scaleSizeOf 0) = 2 * quantizePitchToScale 0 440 1 :=
  ⟨(medusa_c4_amended 0 440 1).1 (by decide) (by decide) (by decide),
   (medusa_c4_amended 0 440 1).2 (by decide) (by decide)⟩

theorem scaleSizeOf_ge_six (sc : ℕ) : 6 ≤ scaleSizeOf sc := by
  rcases sc with _ | _ | _ | _ | _ | n <;>
    simp [scaleSizeOf, minorPentatonicSize, majorScaleSize, bluesScaleSize,
      minorScaleSize, chromaticScaleSize]

/-- C7.  Each pitch mutation adds `±scaleSize` (an octave) when the draw is
below 10, `±2` when it is in `[10, 40)`, and `±1` otherwise, then clamps into
`[0, scaleSize*4)`; consequently the pitch step lies in `[0, scaleSize*4)`
after every mutation. -/
theorem medusa_c7 (sc pitchStep r : ℕ) (coin : Bool) (hr : r < 100) :
    mutatePitchStep sc pitchStep r coin < scaleSizeOf sc * 4 ∧
    (mutatePitchStep sc pitchStep r coin : ℤ)
      = max 0 (min ((scaleSizeOf sc : ℤ) * 4 - 1)
          ((pitchStep : ℤ) + mutateChange (scaleSizeOf sc) r coin)) ∧
    (r < 10 → mutateChange (scaleSizeOf sc) r coin
      = if coin then (scaleSizeOf sc : ℤ) else -(scaleSizeOf sc : ℤ)) ∧
    (10 ≤ r → r < 40 → mutateChange (scaleSizeOf sc) r coin
      = if coin then 2 else -2) ∧
    (40 ≤ r → mutateChange (scaleSizeOf sc) r coin = if coin then 1 else -1) := by
  have hn : 6 ≤ scaleSizeOf sc := scaleSizeOf_ge_six sc
  refine ⟨?_, ?_, ?_, ?_, ?_⟩
  · simp only [mutatePitchStep]
    split
    · omega
    · split <;> omega
  · simp only [mutatePitchStep]
    split
    · omega
    · split <;> push_cast <;> omega
  · intro h10
    unfold mutateChange
    rw [if_pos h10]
  · intro h10 h40
    unfold mutateChange
    rw [if_neg (by omega), if_pos h40]
  · intro h40
    unfold mutateChange
    rw [if_neg (by omega), if_neg (by omega)]

/-- C7 (witness).  Concrete instance: minor pentatonic scale, pitch step 3,
draw 50 (the `±1` tier), positive sign. -/
theorem medusa_c7_witness :
    (50 : ℕ) < 100 ∧
    (mutatePitchStep 0 3 50 true < scaleSizeOf 0 * 4 ∧
     (mutatePitchStep 0 3 50 true : ℤ)
       = max 0 (min ((scaleSizeOf 0 : ℤ) * 4 - 1)
           ((3 : ℤ) + mutateChange (scaleSizeOf 0) 50 true)) ∧
     (50 < 10 → mutateChange (scaleSizeOf 0) 50 true
       = if true then (scaleSizeOf 0 : ℤ) else -(scaleSizeOf 0 : ℤ)) ∧
     (10 ≤ 50 → 50 < 40 → mutateChange (scaleSizeOf 0) 50 true
       = if true then 2 else -2) ∧
     (40 ≤ 50 → mutateChange (scaleSizeOf 0) 50 true = if true then 1 else -1)) :=
  ⟨by decide, medusa_c7 0 3 50 true (by decide)⟩

/-- C6.  While recording, exactly one sample is appended per audio tick (the
write position advances by one and exactly the cell at the old position is
rewritten); reaching position 110250 auto-stops the recording with
`hasRecording = true` and `recordLength = 110250`; once `recording` is false
no tick changes the recorder state at all, until `startRecording` resets the
position and re-establishes the in-bounds invariant. -/
theorem medusa_c6 (r : RecordState) (sample : ℤ) :
    (r.recording = true → r.recordPosition < MAX_RECORD_SAMPLES →
      (recordTick sample r).recordPosition = r.recordPosition + 1 ∧
      (recordTick sample r).buffer r.recordPosition = sample ∧
      (∀ i, i ≠ r.recordPosition →
        (recordTick sample r).buffer i = r.buffer i)) ∧
    (r.recording = true → r.recordPosition = MAX_RECORD_SAMPLES - 1 →
      (recordTick sample r).recording = false ∧
      (recordTick sample r).hasRecording = true ∧
      (recordTick sample r).recordLength = MAX_RECORD_SAMPLES) ∧
    (r.recording = false → recordTick sample r = r) ∧
    (r.recordPosition < MAX_RECORD_SAMPLES → (recordTick sample r).recording = true →
      (recordTick sample r).recordPosition < MAX_RECORD_SAMPLES) ∧
    ((startRecording r).recording = true ∧
      (startRecording r).recordPosition < MAX_RECORD_SAMPLES) := by
  have hM : MAX_RECORD_SAMPLES = 110250 := rfl
  refine ⟨?_, ?_, ?_, ?_, ?_⟩
  · intro hrec hpos
    simp only [recordTick, if_pos (And.intro hrec hpos)]
    split <;> exact ⟨rfl, by simp, fun i hi => by simp [hi]⟩
  · intro hrec hpos
    have hlt : r.recordPosition < MAX_RECORD_SAMPLES := by omega
    have hge : MAX_RECORD_SAMPLES ≤ r.recordPosition + 1 := by omega
    simp only [recordTick, if_pos (And.intro hrec hlt), if_pos hge]
    exact ⟨trivial, trivial, by omega⟩
  · intro hrec
    simp [recordTick, hrec]
  · intro hpos
    by_cases hc : r.recording = true ∧ r.recordPosition < MAX_RECORD_SAMPLES
    · simp only [recordTick, if_pos hc]
      split
      · intro h
        simp at h
      · intro h2
        show r.recordPosition + 1 < MAX_RECORD_SAMPLES
        omega
    · simp only [recordTick, if_neg hc]
      intro h2
      exact hpos
  · refine ⟨rfl, ?_⟩
    show (0 : ℕ) < MAX_RECORD_SAMPLES
    omega

/-- C6 (witness).  Concrete instance: a recorder one sample short of
capacity. -/
theorem medusa_c6_witness :
    let r : RecordState :=
      { recording := true, hasRecording := false,
        recordPosition := MAX_RECORD_SAMPLES - 1, recordLength := 0,
        buffer := fun _ => 0 }
    (recordTick 1234 r).recording = false ∧
    (recordTick 1234 r).hasRecording = true ∧
    (recordTick 1234 r).recordLength = MAX_RECORD_SAMPLES := by
  intro r
  exact (medusa_c6 r 1234).2.1 rfl rfl

set_option maxRecDepth 2048 in
/-- Core property of the probe loop, checked over all `2^8 * 8` enable/step
configurations: if any step is enabled the probe lands on an enabled step
within the 8 successors of the current step; if none is enabled it returns
the first candidate unchanged. -/
theorem probeLoop_finds (e : Fin 8 → Bool) (c : Fin 8) :
    ((∃ i, e i = true) → e (probeLoop e (c + 1) 8) = true ∧
      ∃ k : Fin 8, probeLoop e (c + 1) 8 = c + 1 + k) ∧
    ((∀ i, e i = false) → probeLoop e (c + 1) 8 = c + 1) := by
  revert c
  revert e
  decide

/-- C5.  When the running sequencer advances (sync rising edge with sync
connected, else the internal `stepInterval` timer), the probe visits at most
the 8 successors of the current step: if any step is enabled, the new current
step is an enabled step (one of those successors) and a note is active; if
all 8 steps are disabled, the current step is unchanged, no note is active,
and the sequencer audio output is 0 on every tick (also after any gate-length
update). -/
theorem medusa_c5 (s : SeqState) (syncConnected syncRisingEdge : Bool)
    (elapsed interval : ℕ) (raw : ℤ)
    (hadv : shouldAdvance syncConnected syncRisingEdge elapsed interval = true) :
    ((∃ i, s.stepEnabled i = true) →
      (advanceStep s).stepEnabled (advanceStep s).currentStep = true ∧
      (advanceStep s).noteActive = true ∧
      ∃ k : Fin 8, (advanceStep s).currentStep = s.currentStep + 1 + k) ∧
    ((∀ i, s.stepEnabled i = false) →
      (advanceStep s).noteActive = false ∧
      (advanceStep s).currentStep = s.currentStep ∧
      seqAudioSample (advanceStep s) raw = 0 ∧
      ∀ e d, seqAudioSample (seqGateTick e d (advanceStep s)) raw = 0) := by
  have core := probeLoop_finds s.stepEnabled s.currentStep
  constructor
  · intro he
    obtain ⟨hfound, k, hk⟩ := core.1 he
    simp only [advanceStep, if_pos hfound]
    exact ⟨hfound, trivial, k, hk⟩
  · intro hall
    have hnot : s.stepEnabled (probeLoop s.stepEnabled (s.currentStep + 1) 8) = false :=
      hall _
    simp only [advanceStep, hnot]
    refine ⟨rfl, rfl, ?_, ?_⟩
    · simp [seqAudioSample]
    · intro e d
      unfold seqGateTick
      split <;> simp [seqAudioSample]

/-- C5 (witness).  Concrete instance: only step 2 enabled, current step 0,
advance triggered by a sync rising edge. -/
theorem medusa_c5_witness :
    shouldAdvance true true 0 250 = true ∧
    ((∃ i, seqExample.stepEnabled i = true) →
      (advanceStep seqExample).stepEnabled (advanceStep seqExample).currentStep = true ∧
      (advanceStep seqExample).noteActive = true ∧
      ∃ k : Fin 8, (advanceStep seqExample).currentStep = seqExample.currentStep + 1 + k) ∧
    ((∀ i, seqExample.stepEnabled i = false) →
      (advanceStep seqExample).noteActive = false ∧
      (advanceStep seqExample).currentStep = seqExample.currentStep ∧
      seqAudioSample (advanceStep seqExample) 7 = 0 ∧
      ∀ e d, seqAudioSample (seqGateTick e d (advanceStep seqExample)) 7 = 0) :=
  ⟨by decide, medusa_c5 seqExample true true 0 250 7 (by decide)⟩

theorem echoRun_writePos (echoTime : ℕ) (input : ℕ → ℤ) (s0 : EchoState)
    (hw : s0.writePos < MAX_DELAY_SAMPLES) :
    ∀ n, (echoRun echoTime input s0 n).writePos
      = (s0.writePos + n) % MAX_DELAY_SAMPLES := by
  intro n
  induction n with
  | zero =>
    show s0.writePos = (s0.writePos + 0) % MAX_DELAY_SAMPLES
    rw [Nat.add_zero, Nat.mod_eq_of_lt hw]
  | succ k ih =>
    show ((echoRun echoTime input s0 k).writePos + 1) % MAX_DELAY_SAMPLES = _
    rw [ih, Nat.mod_add_mod, Nat.add_assoc]

theorem clampInt16_eq_self (v : ℤ) (h1 : -32768 ≤ v) (h2 : v ≤ 32767) :
    clampInt16 v = v := by
  unfold clampInt16
  rw [if_neg (by omega), if_neg (by omega)]

theorem echoStep_writes (t : ℕ) (d : ℤ) (s : EchoState)
    (hb1 : -32768 ≤ d) (hb2 : d ≤ 32767) :
    (echoStep t d s).buffer s.writePos = if |d| < 50 then 0 else d := by
  simp only [echoStep]
  rw [if_pos trivial]
  simp only [mul_zero, add_zero]
  have hv : -32768 ≤ (if |d| < 50 then 0 else d) ∧
      (if |d| < 50 then 0 else d) ≤ 32767 := by
    split <;> omega
  exact clampInt16_eq_self _ hv.1 hv.2

theorem echoStep_keeps (t : ℕ) (d : ℤ) (s : EchoState) (i : ℕ)
    (h : i ≠ s.writePos) :
    (echoStep t d s).buffer i = s.buffer i := by
  simp only [echoStep]
  rw [if_neg h]

theorem echoOut_delay (t : ℕ) (input : ℕ → ℤ) (s0 : EchoState)
    (ht1 : 1 ≤ t) (ht2 : t ≤ MAX_DELAY_SAMPLES)
    (hw : s0.writePos < MAX_DELAY_SAMPLES)
    (n : ℕ) (hb1 : -32768 ≤ input n) (hb2 : input n ≤ 32767) :
    echoOut t input s0 (n + t) = if |input n| < 50 then 0 else input n := by
  have hM : MAX_DELAY_SAMPLES = 11025 := rfl
  have hwrite : (echoRun t input s0 (n + 1)).buffer
      ((s0.writePos + n) % MAX_DELAY_SAMPLES) = if |input n| < 50 then 0 else input n := by
    show (echoStep t (input n) (echoRun t input s0 n)).buffer
      ((s0.writePos + n) % MAX_DELAY_SAMPLES) = _
    rw [← echoRun_writePos t input s0 hw n]
    exact echoStep_writes t (input n) _ hb1 hb2
  have hpersist : ∀ j, j ≤ t - 1 →
      (echoRun t input s0 (n + 1 + j)).buffer ((s0.writePos + n) % MAX_DELAY_SAMPLES)
        = (echoRun t input s0 (n + 1)).buffer ((s0.writePos + n) % MAX_DELAY_SAMPLES) := by
    intro j hj
    induction j with
    | zero => rfl
    | succ k ih =>
      have hk : k ≤ t - 1 := by omega
      have hstep : echoRun t input s0 (n + 1 + (k + 1))
          = echoStep t (input (n + 1 + k)) (echoRun t input s0 (n + 1 + k)) := rfl
      rw [hstep, echoStep_keeps, ih hk]
      rw [echoRun_writePos t input s0 hw (n + 1 + k), hM]
      rw [hM] at ht2
      omega
  have hread : echoReadPos t ((s0.writePos + (n + t)) % MAX_DELAY_SAMPLES)
      = (s0.writePos + n) % MAX_DELAY_SAMPLES := by
    unfold echoReadPos
    rw [hM]
    rw [hM] at ht2
    omega
  have hnt : n + t = n + 1 + (t - 1) := by omega
  unfold echoOut
  rw [echoRun_writePos t input s0 hw (n + t), hread, hnt,
    hpersist (t - 1) (le_refl _), hwrite]

/-- C2 (amended).  With echo feedback 0 and the delay enabled, the sample
read from the echo line at tick `n + echoTime` equals the dry input fed in
at tick `n` whenever that input is at or above the ±50 noise floor; inputs
strictly below the noise floor are gated to 0 in the delay line (so the
claimed exact identity holds only above the floor). -/
theorem medusa_c2_amended (echoTime : ℕ) (input : ℕ → ℤ) (s0 : EchoState) (n : ℕ)
    (ht1 : 1 ≤ echoTime) (ht2 : echoTime ≤ MAX_DELAY_SAMPLES)
    (hw : s0.writePos < MAX_DELAY_SAMPLES)
    (hb1 : -32768 ≤ input n) (hb2 : input n ≤ 32767) :
    (50 ≤ |input n| → echoOut echoTime input s0 (n + echoTime) = input n) ∧
    (|input n| < 50 → echoOut echoTime input s0 (n + echoTime) = 0) := by
  have h := echoOut_delay echoTime input s0 ht1 ht2 hw n hb1 hb2
  constructor
  · intro h50
    rw [h, if_neg (by omega)]
  · intro h50
    rw [h, if_pos h50]

/-- C2 (counterexample).  With feedback 0, delay offset 1103 (delayIndex 1)
and a dry input of 30 at tick 0, the sample read at tick 1103 is 0, not 30:
the ±50 noise gate replaces sub-threshold dry samples by the (zero) wet
term, so the delay is not exact for every input sequence. -/
theorem medusa_c2_counterexample :
    echoImpulse30 0 = 30 ∧
    echoOut 1103 echoImpulse30 echoZeroState (0 + 1103) = 0 ∧
    echoOut 1103 echoImpulse30 echoZeroState (0 + 1103) ≠ echoImpulse30 0 := by
  have h := echoOut_delay 1103 echoImpulse30 echoZeroState (by norm_num)
    (by decide) (by decide) 0 (by decide) (by decide)
  have h30 : echoImpulse30 0 = 30 := rfl
  rw [h30] at h
  norm_num at h
  exact ⟨h30, h, by rw [h, h30]; decide⟩

/-- C2 (witness).  Concrete instance: constant dry input 100 (above the
noise floor), delay offset 1103, reading tick 5 + 1103. -/
theorem medusa_c2_witness :
    (50 : ℤ) ≤ |echoConst100 5| ∧
    echoOut 1103 echoConst100 echoZeroState (5 + 1103) = echoConst100 5 :=
  ⟨by decide,
    (medusa_c2_amended 1103 echoConst100 echoZeroState 5 (by norm_num) (by decide)
      (by decide) (by decide) (by decide)).1 (by decide)⟩

theorem evaluateLoopPattern_ratchet (elapsed period : ℕ) :
    evaluateLoopPattern true 5 elapsed period
      = decide (fracQ (loopPosition elapsed period * 12) < 0.5) := by
  simp [evaluateLoopPattern]

theorem position_split (e P m : ℕ) (hP : 0 < P) :
    ((e : ℚ) / P) * m
      = (((m * e) / P : ℕ) : ℚ) + (((m * e) % P : ℕ) : ℚ) / P := by
  have hqr : P * ((m * e) / P) + (m * e) % P = m * e := Nat.div_add_mod _ _
  have hP' : (0 : ℚ) < (P : ℚ) := by exact_mod_cast hP
  have h1 : ((m * e : ℕ) : ℚ)
      = ((P * ((m * e) / P) + (m * e) % P : ℕ) : ℚ) :=
    (congrArg (fun x : ℕ => (x : ℚ)) hqr).symm
  push_cast at h1
  field_simp
  ring_nf
  ring_nf at h1
  linarith [h1]

theorem ratchet_iff (e P : ℕ) (hP : 0 < P) :
    (fracQ (((e % P : ℕ) : ℚ) / P * 12) < 0.5)
      ↔ 2 * ((12 * (e % P)) % P) < P := by
  have hP' : (0 : ℚ) < (P : ℚ) := by exact_mod_cast hP
  have h0 : ⌊((((12 * (e % P)) % P : ℕ) : ℚ)) / P⌋ = 0 := by
    rw [Int.floor_eq_zero_iff]
    constructor
    · positivity
    · rw [div_lt_one hP']
      exact_mod_cast Nat.mod_lt _ hP
  rw [show (12 : ℚ) = ((12 : ℕ) : ℚ) by norm_num]
  rw [position_split (e % P) P 12 hP]
  unfold fracQ
  rw [add_comm, Int.floor_add_nat, h0, zero_add, Int.cast_natCast]
  constructor
  · intro h
    have hx : (((12 * (e % P)) % P : ℕ) : ℚ) / P < 0.5 := by linarith
    rw [div_lt_iff hP'] at hx
    have h2 : ((2 * ((12 * (e % P)) % P) : ℕ) : ℚ) < (P : ℚ) := by push_cast; linarith
    exact_mod_cast h2
  · intro h
    have h2 : ((2 * ((12 * (e % P)) % P) : ℕ) : ℚ) < (P : ℚ) := by exact_mod_cast h
    push_cast at h2
    have hx : (((12 * (e % P)) % P : ℕ) : ℚ) / P < 0.5 := by
      rw [div_lt_iff hP']
      linarith
    linarith

theorem ratchet_count (e P : ℕ) (hP : 0 < P) :
    (24 * e) / P % 2 = 0 ↔ 2 * ((12 * e) % P) < P := by
  have hqr : P * ((12 * e) / P) + (12 * e) % P = 12 * e := Nat.div_add_mod _ _
  have hrlt : (12 * e) % P < P := Nat.mod_lt _ hP
  have h24 : 24 * e = 2 * ((12 * e) % P) + 2 * (P * ((12 * e) / P)) := by omega
  have hdiv : (24 * e) / P = (2 * ((12 * e) % P)) / P + 2 * ((12 * e) / P) := by
    rw [h24, show 2 * (P * ((12 * e) / P)) = P * (2 * ((12 * e) / P)) by ring]
    exact Nat.add_mul_div_left _ _ hP
  rw [hdiv]
  rcases Nat.lt_or_ge (2 * ((12 * e) % P)) P with hlt | hge
  · rw [Nat.div_eq_of_lt hlt]
    simp [Nat.mul_mod_right]
    omega
  · have h1 : (2 * ((12 * e) % P)) / P = 1 :=
      Nat.div_eq_of_lt_le (by omega) (by omega)
    rw [h1]
    omega

/-- C8.  The RATCHET loop-pattern gate is a pure function of elapsed time
modulo the pattern period, open exactly when `frac(position * 12) < 0.5`;
equivalently the gate is open exactly on the even-numbered of the 24
equal sub-intervals of the period (`⌊24·elapsed/period⌋` even, always below
24), which is exactly 12 on/off sub-cycles per period at 50% duty. -/
theorem medusa_c8 (elapsed period : ℕ) (hP : 0 < period) :
    evaluateLoopPattern true 5 elapsed period
      = evaluateLoopPattern true 5 (elapsed % period) period ∧
    (evaluateLoopPattern true 5 elapsed period = true
      ↔ (24 * (elapsed % period)) / period % 2 = 0) ∧
    (24 * (elapsed % period)) / period < 24 := by
  have hmm : elapsed % period % period = elapsed % period := Nat.mod_mod_of_dvd _ dvd_rfl
  refine ⟨?_, ?_, ?_⟩
  · rw [evaluateLoopPattern_ratchet, evaluateLoopPattern_ratchet]
    unfold loopPosition
    rw [hmm]
  · rw [evaluateLoopPattern_ratchet]
    have hiff := ratchet_iff elapsed period hP
    have hcnt := ratchet_count (elapsed % period) period hP
    rw [decide_eq_true_iff]
    unfold loopPosition
    rw [hiff, ← hcnt]
  · rw [Nat.div_lt_iff_lt_mul hP]
    have h := Nat.mod_lt elapsed hP
    omega

/-- C8 (witness).  Concrete instance: period 24 ms, elapsed 49 ms (position
exactly at the boundary `frac = 0.5`, gate closed). -/
theorem medusa_c8_witness :
    (0 : ℕ) < 24 ∧
    (evaluateLoopPattern true 5 49 24 = evaluateLoopPattern true 5 (49 % 24) 24 ∧
     (evaluateLoopPattern true 5 49 24 = true ↔ (24 * (49 % 24)) / 24 % 2 = 0) ∧
     (24 * (49 % 24)) / 24 < 24) :=
  ⟨by decide, medusa_c8 49 24 (by decide)⟩

theorem mutateBody_lastMutateTime (octaveShift : ℤ) (r100 : ℕ) (coin : Bool)
    (r3 r41 : ℕ) (t : MutateState) :
    (mutateBody octaveShift r100 coin r3 r41 t).lastMutateTime = t.lastMutateTime := by
  unfold mutateBody
  split
  · simp [mutatePitchM]
  · split
    · simp [mutateSpeedM, mutatePitchM]
    · split
      · simp [mutateModulationM, mutateSpeedM, mutatePitchM]
      · rfl

theorem triggerMutation_accepted (now : ℕ) (oct : ℤ) (r100 : ℕ) (coin : Bool)
    (r3 r41 : ℕ) (s : MutateState)
    (h : triggerMutation now oct r100 coin r3 r41 s ≠ s) :
    s.fullyDisabled = false ∧ 100 ≤ sub32 now s.lastMutateTime ∧
    (triggerMutation now oct r100 coin r3 r41 s).lastMutateTime = now % 2 ^ 32 := by
  by_cases hd : s.fullyDisabled = true
  · exfalso
    apply h
    unfold triggerMutation
    rw [if_pos hd]
  · by_cases hlt : sub32 now s.lastMutateTime < 100
    · exfalso
      apply h
      unfold triggerMutation
      rw [if_neg hd, if_pos hlt]
    · refine ⟨by simpa using hd, by omega, ?_⟩
      unfold triggerMutation
      rw [if_neg hd, if_neg hlt, mutateBody_lastMutateTime]

/-- C10.  `triggerMutation` is rate-limited and atomic when suppressed: a
call while mutations are fully disabled, or less than 100 ms (by the
wrapping millisecond clock) after the previous accepted mutation, leaves the
whole mutation/pitch/speed/modulation state unchanged; any call that does
change the state records its own time, and a subsequent call can change the
state again only when at least 100 ms have passed since the first, so two
mutations never take effect less than 100 ms apart. -/
theorem medusa_c10 (now : ℕ) (oct : ℤ) (r100 : ℕ) (coin : Bool) (r3 r41 : ℕ)
    (s : MutateState) :
    (s.fullyDisabled = true → triggerMutation now oct r100 coin r3 r41 s = s) ∧
    (sub32 now s.lastMutateTime < 100 → triggerMutation now oct r100 coin r3 r41 s = s) ∧
    (triggerMutation now oct r100 coin r3 r41 s ≠ s →
      s.fullyDisabled = false ∧ 100 ≤ sub32 now s.lastMutateTime ∧
      (triggerMutation now oct r100 coin r3 r41 s).lastMutateTime = now % 2 ^ 32) ∧
    (∀ now2 oct2 r100b coinb r3b r41b,
      triggerMutation now oct r100 coin r3 r41 s ≠ s →
      triggerMutation now2 oct2 r100b coinb r3b r41b
          (triggerMutation now oct r100 coin r3 r41 s)
        ≠ triggerMutation now oct r100 coin r3 r41 s →
      100 ≤ sub32 now2 (now % 2 ^ 32)) := by
  refine ⟨?_, ?_, triggerMutation_accepted now oct r100 coin r3 r41 s, ?_⟩
  · intro h
    unfold triggerMutation
    rw [if_pos h]
  · intro h
    by_cases hd : s.fullyDisabled = true
    · unfold triggerMutation
      rw [if_pos hd]
    · unfold triggerMutation
      rw [if_neg hd, if_pos h]
  · intro now2 oct2 r100b coinb r3b r41b h1 h2
    have ha2 := triggerMutation_accepted now2 oct2 r100b coinb r3b r41b _ h2
    have ht := (triggerMutation_accepted now oct r100 coin r3 r41 s h1).2.2
    rw [ht] at ha2
    exact ha2.2.1

/-- C10 (witness).  Concrete instance: a call 50 ms after the last accepted
mutation is suppressed and leaves the state unchanged. -/
theorem medusa_c10_witness :
    sub32 50 mutateExample.lastMutateTime < 100 ∧
    triggerMutation 50 0 55 true 1 30 mutateExample = mutateExample :=
  ⟨by decide, (medusa_c10 50 0 55 true 1 30 mutateExample).2.1 (by decide)⟩
